import Mathlib

/-!
Verification development for the go-webcrawler repository.

The crawler's own logic lives in `main.go` (worker-pool variant):
`standardizeURL`, `parseURLs`, `crawlWorker`, `processResults`.
Those functions are embedded below over `List Char` strings.

The repository treats the URL parser (`net/url.Parse`, `URL.Hostname`),
the HTML tree (`golang.org/x/net/html.Node`) and the HTTP transport as
external collaborators.  The fragments of their semantics that the
embedded code depends on are modelled here faithfully to the Go standard
library: in particular the path component is stored percent-decoded, as
`net/url`'s `setPath`/`unescape` do (decoded byte values appear as the
character of the same code point).  Percent-escapes inside the host,
query and fragment components, IPv6 zone identifiers and
userinfo-character validation are outside the modelled fragment; every
concrete input appearing in the claims lies inside it.
-/

namespace Crawler

/-- Strings are modelled as lists of characters. -/
abbrev Str := List Char

/-! ## Basic string helpers (Go `strings` package fragments) -/

/-- Characters strictly before the first occurrence of `c` (the whole list
when `c` is absent): the first component of Go's `split(s, c, true)`. -/
def takeUntil (c : Char) : Str → Str
  | [] => []
  | x :: xs => if x = c then [] else x :: takeUntil c xs

/-- Characters strictly after the first occurrence of `c` (empty when `c`
is absent): the second component of Go's `split(s, c, true)`. -/
def dropPast (c : Char) : Str → Str
  | [] => []
  | x :: xs => if x = c then xs else dropPast c xs

/-- Suffix starting at the first occurrence of `c`, inclusive (empty when
`c` is absent): the second component of Go's `split(s, c, false)`. -/
def dropFrom (c : Char) : Str → Str
  | [] => []
  | x :: xs => if x = c then x :: xs else dropFrom c xs

/-- The part of `l` after the last occurrence of `c` (all of `l` when `c`
is absent). -/
def afterLast (c : Char) (l : Str) : Str :=
  (l.reverse.takeWhile (fun x => x ≠ c)).reverse

/-- The part of `l` before the last occurrence of `c` (empty when `c` is
absent). -/
def beforeLast (c : Char) (l : Str) : Str :=
  ((l.reverse.dropWhile (fun x => x ≠ c)).tail).reverse

/-- Go `strings.TrimRight(s, "/")`: remove every trailing `/`. -/
def trimSlashes (l : Str) : Str :=
  (l.reverse.dropWhile (fun x => x = '/')).reverse

/-- ASCII whitespace recognised by Go's `unicode.IsSpace` (the fragment
needed for href values). -/
def isSpaceChar (c : Char) : Bool :=
  c = ' ' || c = '\t' || c = '\n' || c = '\x0b' || c = '\x0c' || c = '\r'

/-- Go `strings.TrimSpace` on the modelled fragment. -/
def trimSpace (l : Str) : Str :=
  ((l.dropWhile (fun c => isSpaceChar c)).reverse.dropWhile
    (fun c => isSpaceChar c)).reverse

/-- Control bytes rejected by `net/url` (`stringContainsCTLByte`). -/
def isCTL (c : Char) : Bool := c.toNat < 32 || c.toNat = 127

/-! ## Model of the external collaborator `net/url` -/

/-- Go `net/url.URL`, restricted to the fields the crawler reads
(`Scheme`, `Opaque`, `Host`, `Path`, `RawQuery`, `Fragment`). -/
structure GoURL where
  scheme : Str
  opq : Str
  host : Str
  path : Str
  query : Str
  frag : Str
deriving DecidableEq, Repr

/-- Scheme characters after the first position: letters, digits, `+`,
`-`, `.` (Go `getScheme`). -/
def isSchemeChar (c : Char) : Bool :=
  (('a' ≤ c && c ≤ 'z') || ('A' ≤ c && c ≤ 'Z'))

/-- Scan of Go's `getScheme`: `orig` is the full input, `acc` the scheme
characters read so far (reversed), the third argument the unread rest.
Returns `(scheme, remainder)`, or `none` for a leading `:`. -/
def schemeLoop (orig : Str) (acc : Str) : Str → Option (Str × Str)
  | [] => some ([], orig)
  | c :: cs =>
    if isSchemeChar c then schemeLoop orig (c :: acc) cs
    else if c.isDigit || c = '+' || c = '-' || c = '.' then
      if acc = [] then some ([], orig) else schemeLoop orig (c :: acc) cs
    else if c = ':' then
      if acc = [] then none else some (acc.reverse, cs)
    else some ([], orig)

/-- Go `getScheme`: split a leading `scheme:` off a raw URL. -/
def getSchemeGo (s : Str) : Option (Str × Str) := schemeLoop s [] s

/-- Go `validOptionalPort` applied to `":" ++ port`. -/
def validPortDigits (port : Str) : Bool := port.all Char.isDigit

/-- Go `net/url.parseHost` on the modelled fragment: validates an
optional numeric port after the last `:` (or after `]` for a bracketed
host) and otherwise accepts the host verbatim. -/
def parseHostGo (h : Str) : Option Str :=
  if h.head? = some '[' then
    if ']' ∈ h then
      let cp := afterLast ']' h
      if cp = [] then some h
      else if cp.head? = some ':' && validPortDigits cp.tail then some h
      else none
    else none
  else
    if ':' ∈ h then
      if validPortDigits (afterLast ':' h) then some h else none
    else some h

/-- Go `net/url.parseAuthority` on the modelled fragment: the host is
everything after the last `@` (userinfo-character validation omitted). -/
def parseAuthorityGo (auth : Str) : Option Str :=
  if '@' ∈ auth then parseHostGo (afterLast '@' auth) else parseHostGo auth

/-- First step of Go `splitHostPort`: strip a valid numeric port after
the last `:`. -/
def stripPortGo (host : Str) : Str :=
  if ':' ∈ host ∧ validPortDigits (afterLast ':' host) = true
  then beforeLast ':' host else host

/-- Second step of Go `splitHostPort`: strip one pair of surrounding
brackets. -/
def stripBrackets (h1 : Str) : Str :=
  if h1.head? = some '[' ∧ h1.getLast? = some ']'
  then (h1.drop 1).dropLast else h1

/-- Go `URL.Hostname` via `splitHostPort`. -/
def hostnameGo (host : Str) : Str := stripBrackets (stripPortGo host)

/-- Does the list start with two slashes (Go `strings.HasPrefix(s, "//")`)? -/
def hasTwoSlash : Str → Bool
  | '/' :: '/' :: _ => true
  | _ => false

/-- Does the list start with three slashes (Go `strings.HasPrefix(s, "///")`)? -/
def hasThreeSlash : Str → Bool
  | '/' :: '/' :: '/' :: _ => true
  | _ => false

/-- One hexadecimal digit (Go `ishex`/`unhex`). -/
def unhex (c : Char) : Option Nat :=
  if '0' ≤ c ∧ c ≤ '9' then some (c.toNat - '0'.toNat)
  else if 'a' ≤ c ∧ c ≤ 'f' then some (c.toNat - 'a'.toNat + 10)
  else if 'A' ≤ c ∧ c ≤ 'F' then some (c.toNat - 'A'.toNat + 10)
  else none

/-- Go `net/url.unescape` in `encodePath` mode, as called by `setPath`:
every `%` must be followed by two hex digits (otherwise the parse
fails with an escape error) and is decoded; all other characters pass
through, so `URL.Path` is stored in decoded form. -/
def unescapePath : Str → Option Str
  | [] => some []
  | c :: cs =>
    if c = '%' then
      match cs with
      | h1 :: h2 :: rest =>
        match unhex h1, unhex h2 with
        | some a, some b =>
          (unescapePath rest).map (fun t => Char.ofNat (16 * a + b) :: t)
        | _, _ => none
      | _ => none
    else (unescapePath cs).map (fun t => c :: t)

/-- The classification step of Go `net/url.parse(rawURL, false)` after
the fragment, scheme and query have been split off `rest2`: opaque for
a rootless path under a scheme (`Opaque` is kept raw and `setPath` is
never reached), plain path (with the colon-in-first-segment error)
otherwise when not slash-rooted, else the `//authority` form or a
rooted path; every branch that assigns `Path` runs `setPath`, i.e.
percent-decodes via `unescapePath`. -/
def parseCore (scheme rest2 query fragment : Str) : Option GoURL :=
  if rest2.head? ≠ some '/' then
    if scheme ≠ [] then some ⟨scheme, rest2, [], [], query, fragment⟩
    else if ':' ∈ takeUntil '/' rest2 then none
    else
      match unescapePath rest2 with
      | none => none
      | some p => some ⟨scheme, [], [], p, query, fragment⟩
  else
    if hasTwoSlash rest2 = true ∧ (scheme ≠ [] ∨ hasThreeSlash rest2 = false)
    then
      match parseAuthorityGo (takeUntil '/' (rest2.drop 2)) with
      | none => none
      | some host =>
        match unescapePath (dropFrom '/' (rest2.drop 2)) with
        | none => none
        | some p => some ⟨scheme, [], host, p, query, fragment⟩
    else
      match unescapePath rest2 with
      | none => none
      | some p => some ⟨scheme, [], [], p, query, fragment⟩

/-- Go `net/url.Parse` on the modelled fragment: split the fragment at
the first `#`, split a leading scheme (lower-cased), split the query at
the first `?`, then classify via `parseCore` (which percent-decodes the
path). -/
def parseURL (s : Str) : Option GoURL :=
  if s.any isCTL then none else
  match getSchemeGo (takeUntil '#' s) with
  | none => none
  | some (sch, rest1) =>
    parseCore (sch.map Char.toLower) (takeUntil '?' rest1) (dropPast '?' rest1)
      (dropPast '#' s)

/-! ## The crawler's own URL normalisation (`standardizeURL` in main.go) -/

/-- `standardizeURL`: `fmt.Sprintf("https://%s%s", urlObj.Hostname(),
strings.TrimRight(urlObj.Path, "/"))`. -/
def standardizeURL (u : GoURL) : Str :=
  "https://".data ++ hostnameGo u.host ++ trimSlashes u.path

/-- Parse a literal string and standardize it (composition used on the
seed URL in `crawl` and on href values in `parseURLs`). -/
def stdOfStr (s : String) : Option Str :=
  (parseURL s.data).map standardizeURL

/-! ## Model of the external collaborator `golang.org/x/net/html` -/

/-- Go `html.NodeType`. -/
inductive NodeKind where
  | errorNode | textNode | documentNode | elementNode | commentNode
  | doctypeNode | rawNode
deriving DecidableEq, Repr

/-- One attribute of an HTML element (`html.Attribute`; the namespace
field, unused by the crawler, is omitted). -/
structure Attr where
  key : Str
  val : Str
deriving DecidableEq, Repr

/-- Go `html.Node`: the `FirstChild`/`NextSibling` chain is modelled as
the list of children in document order. -/
inductive HNode where
  | node (kind : NodeKind) (data : Str) (attrs : List Attr) (children : List HNode)

/-! ## `parseURLs` (link extraction in main.go) -/

/-- Value of the first attribute whose key is `href`; the `break` in the
attribute loop of `parseURLs` stops at this attribute in every case. -/
def hrefOf : List Attr → Option Str
  | [] => none
  | a :: rest => if a.key = "href".data then some a.val else hrefOf rest

/-- The link an anchor's attribute list contributes: the first href
value is trimmed and parsed; a parse failure or a scheme other than
`https` is skipped (logged), otherwise the standardized URL results.
This is the body of the `a.Key == "href"` branch in `parseURLs`. -/
def linkOfAnchor (attrs : List Attr) : Option Str :=
  match hrefOf attrs with
  | none => none
  | some v =>
    match parseURL (trimSpace v) with
    | none => none
    | some w => if w.scheme = "https".data then some (standardizeURL w) else none

/-- `if !seenURLs[u] { urls = append(urls, u) }; seenURLs[u] = true`:
since the seen-set always equals the set of collected URLs, both are one
accumulator. -/
def appendIfNew (acc : List Str) (u : Str) : List Str :=
  if u ∈ acc then acc else acc ++ [u]

/-- The anchor check `f` performs on one node before recursing. -/
def anchorStep (kind : NodeKind) (data : Str) (attrs : List Attr)
    (acc : List Str) : List Str :=
  if kind = NodeKind.elementNode ∧ data = "a".data then
    match linkOfAnchor attrs with
    | some u => appendIfNew acc u
    | none => acc
  else acc

mutual
/-- The recursive closure `f` of `parseURLs`: anchor check first, then
the children in document order, threading the accumulated URL list. -/
def visitNode : HNode → List Str → List Str
  | .node k d attrs cs, acc => visitList cs (anchorStep k d attrs acc)

/-- `for c := n.FirstChild; c != nil; c = c.NextSibling { f(c) }`. -/
def visitList : List HNode → List Str → List Str
  | [], acc => acc
  | n :: ns, acc => visitList ns (visitNode n acc)
end

/-- `parseURLs` from main.go. -/
def parseURLs (doc : HNode) : List Str := visitNode doc []

mutual
/-- The raw stream of accepted links in depth-first order (anchor before
children), before page-local deduplication: the reference order for the
§4.2 extraction contract. -/
def rawNode : HNode → List Str
  | .node k d attrs cs =>
    (if k = NodeKind.elementNode ∧ d = "a".data
     then (linkOfAnchor attrs).toList else []) ++ rawList cs

/-- Raw link streams of a child list, concatenated in document order. -/
def rawList : List HNode → List Str
  | [] => []
  | n :: ns => rawNode n ++ rawList ns
end

/-- First-occurrence deduplication: `dedupFirstAux seen l` drops every
element already in `seen` or seen earlier in `l`. -/
def dedupFirstAux (seen : List Str) : List Str → List Str
  | [] => []
  | x :: xs =>
    if x ∈ seen then dedupFirstAux seen xs
    else x :: dedupFirstAux (x :: seen) xs

/-- Keep the first occurrence of every element, preserving order. -/
def dedupFirst (l : List Str) : List Str := dedupFirstAux [] l

/-! ## `crawlWorker` and `processResults` (main.go) -/

/-- `urlInfo` from main.go (`depth` is a Go `int`). -/
structure UrlInfo where
  val : Str
  depth : Int
deriving DecidableEq, Repr

/-- `urlResults` from main.go. -/
structure UrlResults where
  baseURL : Str
  childURLs : List Str
  depth : Int
deriving DecidableEq, Repr

/-- Outcome of `client.Get` plus `html.Parse` for one URL: transport
error, body-parse error, or a parsed document. -/
inductive FetchOutcome where
  | fetchFail
  | parseFail
  | success (doc : HNode)

/-- `crawlWorker` from main.go, as the function from the sequence of
work items the worker receives from `urlsToCrawl` to the sequence of
results it sends on `results`.  On a fetch or parse error the Go code
executes `return`, so the loop ends and nothing further is emitted. -/
def crawlWorker (fetch : Str → FetchOutcome) : List UrlInfo → List UrlResults
  | [] => []
  | u :: rest =>
    match fetch u.val with
    | .fetchFail => []
    | .parseFail => []
    | .success doc => ⟨u.val, parseURLs doc, u.depth⟩ :: crawlWorker fetch rest

/-- State threaded through `processResults`: the `crawled` map, the
buffered contents of `urlsToCrawl` (nothing is drained while one result
is processed), the cumulative `wg.Add(1)` / `wg.Done()` counts and the
discarded (logged-and-dropped) children. -/
structure AggState where
  crawled : List Str
  queue : List UrlInfo
  adds : Nat
  dones : Nat
  dropped : List Str
deriving DecidableEq, Repr

/-- The body of the inner child loop of `processResults`: the dedup and
depth gate `!crawled[childURL] && (info.depth < maxDepth || maxDepth == 0)`,
then the non-blocking `select` send (enqueue and `wg.Add(1)` when the
buffer has room, log-and-drop otherwise). -/
def processChild (maxDepth : Int) (qcap : Nat) (depth : Int)
    (st : AggState) (c : Str) : AggState :=
  if c ∉ st.crawled ∧ (depth < maxDepth ∨ maxDepth = 0) then
    if st.queue.length < qcap then
      { st with queue := st.queue ++ [⟨c, depth + 1⟩], adds := st.adds + 1 }
    else { st with dropped := st.dropped ++ [c] }
  else st

/-- One iteration of `for info := range results` in `processResults`:
mark the source crawled, run the child loop, then `wg.Done()`. -/
def processOne (maxDepth : Int) (qcap : Nat) (st : AggState)
    (r : UrlResults) : AggState :=
  let st1 := { st with crawled := st.crawled ++ [r.baseURL] }
  let st2 := r.childURLs.foldl (processChild maxDepth qcap r.depth) st1
  { st2 with dones := st2.dones + 1 }

/-- `processResults` from main.go, over the sequence of results it
consumes before the channel closes. -/
def processResults (maxDepth : Int) (qcap : Nat) (st : AggState)
    (rs : List UrlResults) : AggState :=
  rs.foldl (processOne maxDepth qcap) st

/-- The aggregator's state at the start of a crawl. -/
def initState : AggState := ⟨[], [], 0, 0, []⟩

/-! ## Lemmas about the aggregator -/

theorem processChild_crawled (md : Int) (qcap : Nat) (d : Int) (st : AggState)
    (c : Str) : (processChild md qcap d st c).crawled = st.crawled := by
  unfold processChild
  split
  · split <;> rfl
  · rfl

theorem processChild_dones (md : Int) (qcap : Nat) (d : Int) (st : AggState)
    (c : Str) : (processChild md qcap d st c).dones = st.dones := by
  unfold processChild
  split
  · split <;> rfl
  · rfl

theorem processChild_queue_sub (md : Int) (qcap : Nat) (d : Int) (st : AggState)
    (c : Str) (it : UrlInfo) (h : it ∈ (processChild md qcap d st c).queue) :
    it ∈ st.queue ∨ (it.val = c ∧ c ∉ st.crawled) := by
  unfold processChild at h
  split at h
  case isTrue hcond =>
    split at h
    · rcases List.mem_append.mp h with h1 | h1
      · exact Or.inl h1
      · right
        rcases List.mem_singleton.mp h1 with rfl
        exact ⟨rfl, hcond.1⟩
    · exact Or.inl h
  case isFalse _ => exact Or.inl h

theorem foldl_processChild_crawled (md : Int) (qcap : Nat) (d : Int) :
    ∀ (l : List Str) (st : AggState),
    (l.foldl (processChild md qcap d) st).crawled = st.crawled := by
  intro l
  induction l with
  | nil => intro st; rfl
  | cons c cs ih =>
    intro st
    rw [List.foldl_cons, ih, processChild_crawled]

theorem foldl_processChild_dones (md : Int) (qcap : Nat) (d : Int) :
    ∀ (l : List Str) (st : AggState),
    (l.foldl (processChild md qcap d) st).dones = st.dones := by
  intro l
  induction l with
  | nil => intro st; rfl
  | cons c cs ih =>
    intro st
    rw [List.foldl_cons, ih, processChild_dones]

theorem foldl_processChild_queue_sub (md : Int) (qcap : Nat) (d : Int) :
    ∀ (l : List Str) (st : AggState) (it : UrlInfo),
    it ∈ (l.foldl (processChild md qcap d) st).queue →
    it ∈ st.queue ∨ (it.val ∈ l ∧ it.val ∉ st.crawled) := by
  intro l
  induction l with
  | nil => intro st it h; exact Or.inl h
  | cons c cs ih =>
    intro st it h
    rcases ih (processChild md qcap d st c) it h with h1 | ⟨h1, h2⟩
    · rcases processChild_queue_sub md qcap d st c it h1 with h2 | ⟨h2, h3⟩
      · exact Or.inl h2
      · exact Or.inr ⟨h2 ▸ List.mem_cons_self c cs, h2 ▸ h3⟩
    · rw [processChild_crawled] at h2
      exact Or.inr ⟨List.mem_cons_of_mem c h1, h2⟩

theorem processOne_crawled (md : Int) (qcap : Nat) (st : AggState)
    (r : UrlResults) :
    (processOne md qcap st r).crawled = st.crawled ++ [r.baseURL] := by
  unfold processOne
  rw [foldl_processChild_crawled]

theorem processResults_crawled (md : Int) (qcap : Nat) :
    ∀ (rs : List UrlResults) (st : AggState),
    (processResults md qcap st rs).crawled
      = st.crawled ++ rs.map (·.baseURL) := by
  intro rs
  induction rs with
  | nil => intro st; simp [processResults]
  | cons r rest ih =>
    intro st
    show (processResults md qcap (processOne md qcap st r) rest).crawled = _
    rw [ih, processOne_crawled, List.map_cons, List.append_assoc,
      List.singleton_append]

theorem processChild_gate_closed (md : Int) (qcap : Nat) (d : Int)
    (st : AggState) (c : Str) (h : ¬(d < md ∨ md = 0)) :
    processChild md qcap d st c = st := by
  unfold processChild
  rw [if_neg]
  rintro ⟨-, hg⟩
  exact h hg

theorem foldl_processChild_gate_closed (md : Int) (qcap : Nat) (d : Int)
    (h : ¬(d < md ∨ md = 0)) :
    ∀ (l : List Str) (st : AggState),
    l.foldl (processChild md qcap d) st = st := by
  intro l
  induction l with
  | nil => intro st; rfl
  | cons c cs ih =>
    intro st
    rw [List.foldl_cons, processChild_gate_closed md qcap d st c h, ih]

/-- Exact effect of the child loop when every child passes the dedup and
depth gate: the queue fills up to capacity in order, the rest is
dropped. -/
theorem foldl_processChild_fresh (md : Int) (qcap : Nat) (d : Int)
    (hgate : d < md ∨ md = 0) :
    ∀ (l : List Str) (st : AggState), (∀ c ∈ l, c ∉ st.crawled) →
    (l.foldl (processChild md qcap d) st).queue
      = st.queue ++ (l.take (qcap - st.queue.length)).map
          (fun c => (⟨c, d + 1⟩ : UrlInfo)) ∧
    (l.foldl (processChild md qcap d) st).adds
      = st.adds + min (qcap - st.queue.length) l.length ∧
    (l.foldl (processChild md qcap d) st).dropped
      = st.dropped ++ l.drop (qcap - st.queue.length) := by
  intro l
  induction l with
  | nil =>
    intro st _
    refine ⟨?_, ?_, ?_⟩ <;> simp [processResults]
  | cons c cs ih =>
    intro st hfresh
    have hc : c ∉ st.crawled := hfresh c (List.mem_cons_self c cs)
    rw [List.foldl_cons]
    by_cases hroom : st.queue.length < qcap
    · have hstep : processChild md qcap d st c =
          { st with queue := st.queue ++ [⟨c, d + 1⟩], adds := st.adds + 1 } := by
        unfold processChild
        rw [if_pos ⟨hc, hgate⟩, if_pos hroom]
      rw [hstep]
      obtain ⟨hq, ha, hd⟩ := ih
        { st with queue := st.queue ++ [⟨c, d + 1⟩], adds := st.adds + 1 }
        (by
          intro x hx
          exact hfresh x (List.mem_cons_of_mem c hx))
      have hlen : (st.queue ++ [(⟨c, d + 1⟩ : UrlInfo)]).length
          = st.queue.length + 1 := by simp
      have hsub : qcap - (st.queue.length + 1) = (qcap - st.queue.length) - 1 :=
        by omega
      have hpos : 1 ≤ qcap - st.queue.length := by omega
      refine ⟨?_, ?_, ?_⟩
      · rw [hq, hlen, hsub]
        have htake : (c :: cs).take (qcap - st.queue.length)
            = c :: cs.take (qcap - st.queue.length - 1) := by
          obtain ⟨k, hk⟩ : ∃ k, qcap - st.queue.length = k + 1 :=
            ⟨qcap - st.queue.length - 1, by omega⟩
          rw [hk]
          simp
        rw [htake, List.map_cons, List.append_assoc, List.singleton_append]
      · rw [ha, hlen, hsub]
        have : min (qcap - st.queue.length) (cs.length + 1)
            = min (qcap - st.queue.length - 1) cs.length + 1 := by omega
        simp only [List.length_cons, this]
        omega
      · rw [hd, hlen, hsub]
        have hdrop : (c :: cs).drop (qcap - st.queue.length)
            = cs.drop (qcap - st.queue.length - 1) := by
          obtain ⟨k, hk⟩ : ∃ k, qcap - st.queue.length = k + 1 :=
            ⟨qcap - st.queue.length - 1, by omega⟩
          rw [hk]
          simp
        rw [hdrop]
    · have hstep : processChild md qcap d st c =
          { st with dropped := st.dropped ++ [c] } := by
        unfold processChild
        rw [if_pos ⟨hc, hgate⟩, if_neg hroom]
      rw [hstep]
      obtain ⟨hq, ha, hd⟩ := ih { st with dropped := st.dropped ++ [c] }
        (by
          intro x hx
          exact hfresh x (List.mem_cons_of_mem c hx))
      have hzero : qcap - st.queue.length = 0 := by omega
      refine ⟨?_, ?_, ?_⟩
      · rw [hq]; simp [hzero]
      · rw [ha]; simp [hzero]
      · rw [hd]
        simp only [hzero, List.drop_zero, List.take_zero]
        rw [List.append_assoc, List.singleton_append]

/-! ## Lemmas about string trimming and ports -/

theorem takeWhile_append_all {p : Char → Bool} {l₁ l₂ : Str}
    (h : ∀ x ∈ l₁, p x = true) :
    (l₁ ++ l₂).takeWhile p = l₁ ++ l₂.takeWhile p := by
  induction l₁ with
  | nil => rfl
  | cons a l ih =>
    rw [List.cons_append, List.takeWhile_cons, if_pos (h a (List.mem_cons_self a l)),
      ih (fun x hx => h x (List.mem_cons_of_mem a hx)), List.cons_append]

theorem dropWhile_append_all {p : Char → Bool} {l₁ l₂ : Str}
    (h : ∀ x ∈ l₁, p x = true) :
    (l₁ ++ l₂).dropWhile p = l₂.dropWhile p := by
  induction l₁ with
  | nil => rfl
  | cons a l ih =>
    rw [List.cons_append, List.dropWhile_cons, if_pos (h a (List.mem_cons_self a l))]
    exact ih (fun x hx => h x (List.mem_cons_of_mem a hx))

theorem afterLast_append (c : Char) (l₁ l₂ : Str) (h : c ∉ l₂) :
    afterLast c (l₁ ++ c :: l₂) = l₂ := by
  unfold afterLast
  rw [List.reverse_append, List.reverse_cons, List.append_assoc,
    takeWhile_append_all (by
      intro x hx
      simp only [ne_eq, decide_eq_true_eq]
      intro hxc
      exact h (hxc ▸ List.mem_reverse.mp hx)),
    List.singleton_append, List.takeWhile_cons, if_neg (by simp),
    List.append_nil, List.reverse_reverse]

theorem beforeLast_append (c : Char) (l₁ l₂ : Str) (h : c ∉ l₂) :
    beforeLast c (l₁ ++ c :: l₂) = l₁ := by
  unfold beforeLast
  rw [List.reverse_append, List.reverse_cons, List.append_assoc,
    dropWhile_append_all (by
      intro x hx
      simp only [ne_eq, decide_eq_true_eq]
      intro hxc
      exact h (hxc ▸ List.mem_reverse.mp hx)),
    List.singleton_append, List.dropWhile_cons, if_neg (by simp),
    List.tail_cons, List.reverse_reverse]

theorem digit_ne_colon {x : Char} (h : x.isDigit = true) : ¬x = ':' := by
  intro hx
  rw [hx] at h
  simp [Char.isDigit] at h

theorem hostnameGo_strip_port (h port : Str) (hh : ':' ∉ h)
    (hp : port.all Char.isDigit = true) :
    hostnameGo (h ++ ':' :: port) = hostnameGo h := by
  have hpc : ':' ∉ port := by
    intro hmem
    exact digit_ne_colon (List.all_eq_true.mp hp ':' hmem) rfl
  have hafter : afterLast ':' (h ++ ':' :: port) = port :=
    afterLast_append ':' h port hpc
  have hbefore : beforeLast ':' (h ++ ':' :: port) = h :=
    beforeLast_append ':' h port hpc
  have hmem : ':' ∈ h ++ ':' :: port :=
    List.mem_append.mpr (Or.inr (List.mem_cons_self _ _))
  have h1 : stripPortGo (h ++ ':' :: port) = h := by
    unfold stripPortGo
    rw [hafter, if_pos ⟨hmem, hp⟩, hbefore]
  have h2 : stripPortGo h = h := by
    unfold stripPortGo
    rw [if_neg (fun hcon => hh hcon.1)]
  rw [hostnameGo, hostnameGo, h1, h2]

theorem trimSlashes_append_replicate (l : Str) (n : Nat) :
    trimSlashes (l ++ List.replicate n '/') = trimSlashes l := by
  unfold trimSlashes
  rw [List.reverse_append, List.reverse_replicate,
    dropWhile_append_all (by
      intro x hx
      rcases List.eq_of_mem_replicate hx with rfl
      simp)]

/-! ## Lemmas about the split helpers -/

theorem dropPast_sub {c a : Char} : ∀ {l : Str}, a ∈ dropPast c l → a ∈ l
  | [], h => h
  | x :: xs, h => by
    unfold dropPast at h
    split at h
    · exact List.mem_cons_of_mem x h
    · exact List.mem_cons_of_mem x (dropPast_sub h)

/-- An anchor element carrying a single href attribute. -/
def anchorNode (href : Str) : HNode :=
  .node .elementNode "a".data [⟨"href".data, href⟩] []

theorem linkOfAnchor_eq (attrs : List Attr) (v : Str)
    (h : hrefOf attrs = some v) :
    linkOfAnchor attrs = match parseURL (trimSpace v) with
      | none => none
      | some w =>
        if w.scheme = "https".data then some (standardizeURL w) else none := by
  unfold linkOfAnchor
  rw [h]

theorem anchorStep_eq (k : NodeKind) (d : Str) (attrs : List Attr)
    (acc : List Str) :
    anchorStep k d attrs acc =
      ((if k = NodeKind.elementNode ∧ d = "a".data
        then (linkOfAnchor attrs).toList else []).foldl appendIfNew acc) := by
  unfold anchorStep
  split
  · cases linkOfAnchor attrs <;> simp [Option.toList]
  · rfl

mutual
theorem visitNode_eq : ∀ (n : HNode) (acc : List Str),
    visitNode n acc = (rawNode n).foldl appendIfNew acc
  | .node k d attrs cs, acc => by
    rw [visitNode, rawNode, List.foldl_append, visitList_eq cs, anchorStep_eq]

theorem visitList_eq : ∀ (ns : List HNode) (acc : List Str),
    visitList ns acc = (rawList ns).foldl appendIfNew acc
  | [], acc => rfl
  | n :: ns, acc => by
    rw [visitList, rawList, List.foldl_append, visitList_eq ns, visitNode_eq n]
end

theorem dedupFirstAux_congr : ∀ (l : List Str) (s₁ s₂ : List Str),
    (∀ y, y ∈ s₁ ↔ y ∈ s₂) → dedupFirstAux s₁ l = dedupFirstAux s₂ l := by
  intro l
  induction l with
  | nil => intro s₁ s₂ _; rfl
  | cons x xs ih =>
    intro s₁ s₂ hs
    unfold dedupFirstAux
    by_cases hx : x ∈ s₁
    · rw [if_pos hx, if_pos ((hs x).mp hx)]
      exact ih s₁ s₂ hs
    · rw [if_neg hx, if_neg (fun h => hx ((hs x).mpr h))]
      rw [ih (x :: s₁) (x :: s₂) (by
        intro y
        simp only [List.mem_cons]
        exact or_congr Iff.rfl (hs y))]

theorem foldl_appendIfNew_eq : ∀ (l : List Str) (acc : List Str),
    l.foldl appendIfNew acc = acc ++ dedupFirstAux acc l := by
  intro l
  induction l with
  | nil => intro acc; simp [dedupFirstAux]
  | cons x xs ih =>
    intro acc
    rw [List.foldl_cons]
    unfold dedupFirstAux
    by_cases hx : x ∈ acc
    · rw [show appendIfNew acc x = acc from if_pos hx, if_pos hx, ih]
    · rw [show appendIfNew acc x = acc ++ [x] from if_neg hx, if_neg hx, ih,
        dedupFirstAux_congr xs (acc ++ [x]) (x :: acc) (by
          intro y
          simp only [List.mem_append, List.mem_singleton, List.mem_cons]
          tauto),
        List.append_assoc, List.singleton_append]

theorem dedupFirstAux_nodup : ∀ (l : List Str) (seen : List Str),
    (dedupFirstAux seen l).Nodup ∧ ∀ y ∈ dedupFirstAux seen l, y ∉ seen := by
  intro l
  induction l with
  | nil => intro seen; exact ⟨List.nodup_nil, by simp [dedupFirstAux]⟩
  | cons x xs ih =>
    intro seen
    unfold dedupFirstAux
    by_cases hx : x ∈ seen
    · rw [if_pos hx]
      exact ih seen
    · rw [if_neg hx]
      obtain ⟨hnd, hout⟩ := ih (x :: seen)
      refine ⟨List.nodup_cons.mpr ⟨?_, hnd⟩, ?_⟩
      · intro hmem
        exact hout x hmem (List.mem_cons_self x seen)
      · intro y hy
        rcases List.mem_cons.mp hy with rfl | hy'
        · exact hx
        · exact fun hseen => hout y hy' (List.mem_cons_of_mem x hseen)

theorem parseURLs_eq_dedup (doc : HNode) :
    parseURLs doc = dedupFirst (rawNode doc) := by
  rw [parseURLs, visitNode_eq, foldl_appendIfNew_eq, List.nil_append, dedupFirst]

/-! ## Claim theorems -/

/-- C1: the claim is that a WorkItem whose fetch fails still decrements
the outstanding wait-group exactly once.  The code violates it: on a
fetch error `crawlWorker` executes `return` without emitting a result,
and `wg.Done()` runs only in `processResults` once per received result;
so for an enqueued failing item (here: one `wg.Add`, recorded as
`adds = 1`) the aggregator performs zero decrements and the
crawl-complete-iff-counter-zero invariant is broken — `wg.Wait()` can
never return. -/
theorem c1_fetch_error_breaks_counter :
    crawlWorker (fun _ => .fetchFail) [⟨"https://bad.example".data, 1⟩] = [] ∧
    (processResults 3 5 ⟨[], [], 1, 0, []⟩
      (crawlWorker (fun _ => .fetchFail)
        [⟨"https://bad.example".data, 1⟩])).dones = 0 ∧
    (processResults 3 5 ⟨[], [], 1, 0, []⟩
      (crawlWorker (fun _ => .fetchFail)
        [⟨"https://bad.example".data, 1⟩])).adds = 1 :=
  ⟨rfl, rfl, rfl⟩

/-- C3: the claim is that a fetch error on one WorkItem does not
terminate the worker.  The code violates it: with a queue holding a
failing item and then a good item, the worker emits nothing at all (the
`return` ends its loop), although the same worker fed only the good
item does process it. -/
theorem c3_worker_terminates_on_error :
    crawlWorker
      (fun u => if u = "https://bad.example".data then .fetchFail
                else .success (.node .documentNode [] [] []))
      [⟨"https://bad.example".data, 1⟩, ⟨"https://ok.example".data, 1⟩] = [] ∧
    crawlWorker
      (fun u => if u = "https://bad.example".data then .fetchFail
                else .success (.node .documentNode [] [] []))
      [⟨"https://ok.example".data, 1⟩]
      = [⟨"https://ok.example".data, [], 1⟩] := by
  constructor <;> decide

/-- C2, counterexample: the same child URL `https://x` listed by two
results that are both consumed before the child's own result is
enqueued twice — `processResults` marks only `info.baseURL` as crawled,
never the children it enqueues, so the claimed at-most-once enqueue
invariant is false. -/
theorem c2_counterexample :
    ((processResults 3 5 initState
      [⟨"https://p1".data, ["https://x".data], 1⟩,
       ⟨"https://p2".data, ["https://x".data], 1⟩]).queue.map (·.val))
      = ["https://x".data, "https://x".data] := by decide

/-- C2, amended: the aggregator marks a URL visited only when that URL's
own result is consumed.  What holds is: (1) every work item a consumed
result adds to the queue is a child of that result whose URL was neither
already crawled nor the result's own source URL; (2) the crawled set
after a run contains the source URL of every consumed result — so a URL
is never re-enqueued at or after the time its own result is consumed,
but a child shared by two results that are both consumed before the
child's own result can be enqueued twice. -/
theorem c2_amended_dedup :
    (∀ (md : Int) (qcap : Nat) (st : AggState) (r : UrlResults)
       (it : UrlInfo), it ∈ (processOne md qcap st r).queue →
       it ∈ st.queue ∨
         (it.val ∈ r.childURLs ∧ it.val ∉ st.crawled ∧ it.val ≠ r.baseURL)) ∧
    (∀ (md : Int) (qcap : Nat) (st : AggState) (rs : List UrlResults)
       (r : UrlResults), r ∈ rs →
       r.baseURL ∈ (processResults md qcap st rs).crawled) := by
  constructor
  · intro md qcap st r it h
    have h' : it ∈ (r.childURLs.foldl
        (processChild md qcap r.depth)
        { st with crawled := st.crawled ++ [r.baseURL] }).queue := h
    rcases foldl_processChild_queue_sub md qcap r.depth r.childURLs
        { st with crawled := st.crawled ++ [r.baseURL] } it h' with h1 | ⟨h1, h2⟩
    · exact Or.inl h1
    · refine Or.inr ⟨h1, ?_, ?_⟩
      · intro hc
        exact h2 (List.mem_append.mpr (Or.inl hc))
      · intro hc
        exact h2 (List.mem_append.mpr (Or.inr (hc ▸ List.mem_singleton_self _)))
  · intro md qcap st rs r hr
    rw [processResults_crawled]
    exact List.mem_append.mpr (Or.inr (List.mem_map_of_mem (·.baseURL) hr))

/-- Witness for the C2 amended theorem at a concrete run: the enqueued
item `⟨https://x, 2⟩` is in the queue produced by consuming
`⟨https://p1, [https://x], 1⟩`, and the theorem pins it down as a fresh
child distinct from the source URL. -/
theorem c2_amended_dedup_witness :
    ((⟨"https://x".data, 2⟩ : UrlInfo) ∈ (processOne 3 5 initState
      ⟨"https://p1".data, ["https://x".data], 1⟩).queue) ∧
    ((⟨"https://x".data, 2⟩ : UrlInfo) ∈ initState.queue ∨
      ("https://x".data ∈ ["https://x".data] ∧
       "https://x".data ∉ initState.crawled ∧
       "https://x".data ≠ "https://p1".data)) :=
  ⟨by decide, c2_amended_dedup.1 3 5 initState
    ⟨"https://p1".data, ["https://x".data], 1⟩ ⟨"https://x".data, 2⟩ (by decide)⟩

/-- C4: depth gating.  When `maxDepth ≠ 0` a consumed result whose
depth is not below `maxDepth` (in particular `depth = maxDepth`)
enqueues nothing, adds nothing to the counter and drops nothing,
regardless of its children; when `maxDepth = 0` the depth never changes
whether a child is enqueued or dropped. -/
theorem c4_depth_gating :
    (∀ (md : Int) (qcap : Nat) (st : AggState) (r : UrlResults),
       md ≠ 0 → ¬(r.depth < md) →
       (processOne md qcap st r).queue = st.queue ∧
       (processOne md qcap st r).adds = st.adds ∧
       (processOne md qcap st r).dropped = st.dropped) ∧
    (∀ (qcap : Nat) (d d' : Int) (st : AggState) (c : Str),
       (processChild 0 qcap d st c).queue.length
         = (processChild 0 qcap d' st c).queue.length ∧
       (processChild 0 qcap d st c).dropped
         = (processChild 0 qcap d' st c).dropped ∧
       (processChild 0 qcap d st c).adds
         = (processChild 0 qcap d' st c).adds) := by
  constructor
  · intro md qcap st r hmd hlt
    have hgate : ¬(r.depth < md ∨ md = 0) := by
      rintro (h | h)
      · exact hlt h
      · exact hmd h
    have hfold := foldl_processChild_gate_closed md qcap r.depth hgate
      r.childURLs { st with crawled := st.crawled ++ [r.baseURL] }
    refine ⟨?_, ?_, ?_⟩
    · show (r.childURLs.foldl (processChild md qcap r.depth)
        { st with crawled := st.crawled ++ [r.baseURL] }).queue = st.queue
      rw [hfold]
    · show (r.childURLs.foldl (processChild md qcap r.depth)
        { st with crawled := st.crawled ++ [r.baseURL] }).adds = st.adds
      rw [hfold]
    · show (r.childURLs.foldl (processChild md qcap r.depth)
        { st with crawled := st.crawled ++ [r.baseURL] }).dropped = st.dropped
      rw [hfold]
  · intro qcap d d' st c
    unfold processChild
    have hgate : ∀ e : Int, (c ∉ st.crawled ∧ (e < 0 ∨ (0 : Int) = 0))
        ↔ c ∉ st.crawled := by
      intro e
      constructor
      · exact fun h => h.1
      · exact fun h => ⟨h, Or.inr rfl⟩
    by_cases hc : c ∉ st.crawled
    · rw [if_pos ((hgate d).mpr hc), if_pos ((hgate d').mpr hc)]
      by_cases hroom : st.queue.length < qcap
      · rw [if_pos hroom, if_pos hroom]
        simp
      · rw [if_neg hroom, if_neg hroom]
        exact ⟨rfl, rfl, rfl⟩
    · rw [if_neg (fun h => hc h.1), if_neg (fun h => hc h.1)]
      exact ⟨rfl, rfl, rfl⟩

/-- Witness for C4 at `maxDepth = 3` and a result of depth 3 (the
spec's "depth == maxDepth produces zero new work items"). -/
theorem c4_depth_gating_witness :
    ((3 : Int) ≠ 0) ∧ (¬((3 : Int) < 3)) ∧
    ((processOne 3 5 initState
        ⟨"https://foo.com".data, ["https://a.com".data, "https://b.com".data],
          3⟩).queue = initState.queue ∧
     (processOne 3 5 initState
        ⟨"https://foo.com".data, ["https://a.com".data, "https://b.com".data],
          3⟩).adds = initState.adds ∧
     (processOne 3 5 initState
        ⟨"https://foo.com".data, ["https://a.com".data, "https://b.com".data],
          3⟩).dropped = initState.dropped) :=
  ⟨by decide, by decide,
    c4_depth_gating.1 3 5 initState
      ⟨"https://foo.com".data, ["https://a.com".data, "https://b.com".data], 3⟩
      (by decide) (by decide)⟩

/-- C5: backpressure drop.  A result with 7 children that all pass the
dedup and depth gates, consumed against an empty frontier queue of
capacity 5, enqueues exactly the first 5 children in extraction order
(with depth `parent + 1`, each performing one `wg.Add(1)`), drops the
remaining 2, and performs its single `wg.Done()`; nothing ever blocks
because the `select` falls through to `default` when the buffer is
full. -/
theorem c5_backpressure_drop (md : Int) (st : AggState) (r : UrlResults)
    (hq : st.queue = []) (hlen : r.childURLs.length = 7)
    (hfresh : ∀ c ∈ r.childURLs, c ∉ st.crawled ∧ c ≠ r.baseURL)
    (hgate : r.depth < md ∨ md = 0) :
    (processOne md 5 st r).queue
      = (r.childURLs.take 5).map (fun c => (⟨c, r.depth + 1⟩ : UrlInfo)) ∧
    (processOne md 5 st r).adds = st.adds + 5 ∧
    (processOne md 5 st r).dropped = st.dropped ++ r.childURLs.drop 5 ∧
    (processOne md 5 st r).dones = st.dones + 1 := by
  have hfresh' : ∀ c ∈ r.childURLs,
      c ∉ ({ st with crawled := st.crawled ++ [r.baseURL] } : AggState).crawled := by
    intro c hc
    intro hmem
    rcases List.mem_append.mp hmem with h1 | h1
    · exact (hfresh c hc).1 h1
    · exact (hfresh c hc).2 (List.mem_singleton.mp h1)
  obtain ⟨hq', ha', hd'⟩ := foldl_processChild_fresh md 5 r.depth hgate
    r.childURLs { st with crawled := st.crawled ++ [r.baseURL] } hfresh'
  have hql : ({ st with crawled := st.crawled ++ [r.baseURL] } : AggState).queue
      = [] := hq
  refine ⟨?_, ?_, ?_, ?_⟩
  · show (r.childURLs.foldl (processChild md 5 r.depth)
      { st with crawled := st.crawled ++ [r.baseURL] }).queue = _
    rw [hq', hql]
    simp
  · show (r.childURLs.foldl (processChild md 5 r.depth)
      { st with crawled := st.crawled ++ [r.baseURL] }).adds = _
    rw [ha', hql, hlen]
    rfl
  · show (r.childURLs.foldl (processChild md 5 r.depth)
      { st with crawled := st.crawled ++ [r.baseURL] }).dropped = _
    rw [hd', hql]
    simp
  · show (r.childURLs.foldl (processChild md 5 r.depth)
      { st with crawled := st.crawled ++ [r.baseURL] }).dones + 1 = _
    rw [foldl_processChild_dones]

/-- Witness for C5: the overflow scenario of the unit test (capacity 5,
seven fresh children of a depth-1 result, `maxDepth = 3`). -/
theorem c5_backpressure_drop_witness :
    (processOne 3 5 initState
      ⟨"https://foo.com".data,
        ["https://a.com".data, "https://b.com".data, "https://c.com".data,
         "https://d.com".data, "https://e.com".data, "https://f.com".data,
         "https://g.com".data], 1⟩).queue
      = ((["https://a.com".data, "https://b.com".data, "https://c.com".data,
         "https://d.com".data, "https://e.com".data, "https://f.com".data,
         "https://g.com".data].take 5).map
          (fun c => (⟨c, (1 : Int) + 1⟩ : UrlInfo))) ∧
    (processOne 3 5 initState
      ⟨"https://foo.com".data,
        ["https://a.com".data, "https://b.com".data, "https://c.com".data,
         "https://d.com".data, "https://e.com".data, "https://f.com".data,
         "https://g.com".data], 1⟩).adds = initState.adds + 5 ∧
    (processOne 3 5 initState
      ⟨"https://foo.com".data,
        ["https://a.com".data, "https://b.com".data, "https://c.com".data,
         "https://d.com".data, "https://e.com".data, "https://f.com".data,
         "https://g.com".data], 1⟩).dropped
      = initState.dropped ++
        (["https://a.com".data, "https://b.com".data, "https://c.com".data,
         "https://d.com".data, "https://e.com".data, "https://f.com".data,
         "https://g.com".data].drop 5) ∧
    (processOne 3 5 initState
      ⟨"https://foo.com".data,
        ["https://a.com".data, "https://b.com".data, "https://c.com".data,
         "https://d.com".data, "https://e.com".data, "https://f.com".data,
         "https://g.com".data], 1⟩).dones = initState.dones + 1 :=
  c5_backpressure_drop 3 initState
    ⟨"https://foo.com".data,
      ["https://a.com".data, "https://b.com".data, "https://c.com".data,
       "https://d.com".data, "https://e.com".data, "https://f.com".data,
       "https://g.com".data], 1⟩
    rfl rfl (by decide) (by decide)

/-- C6: `standardizeURL` ignores the input scheme, query and fragment
entirely, strips every trailing `/` from the path, and always produces
a string starting with `https://`; the spec's example table follows for
the parsed forms of the literal inputs. -/
theorem c6_standardize_url :
    (∀ (u : GoURL) (s q f : Str),
       standardizeURL { u with scheme := s, query := q, frag := f }
         = standardizeURL u) ∧
    (∀ (u : GoURL) (n : Nat),
       standardizeURL { u with path := u.path ++ List.replicate n '/' }
         = standardizeURL u) ∧
    (∀ u : GoURL, (standardizeURL u).take 8 = "https://".data) ∧
    stdOfStr "foo.com" = some "https://foo.com".data ∧
    stdOfStr "foo.com/" = some "https://foo.com".data ∧
    stdOfStr "foo.com/////" = some "https://foo.com".data ∧
    stdOfStr "foo.com/a/b/c/" = some "https://foo.com/a/b/c".data ∧
    stdOfStr "foo.com?a=b&c=d" = some "https://foo.com".data ∧
    stdOfStr "foo.com/#tag?a=b&c=d" = some "https://foo.com".data := by
  refine ⟨?_, ?_, ?_, ?_, ?_, ?_, ?_, ?_, ?_⟩
  · intro u s q f
    rfl
  · intro u n
    show "https://".data ++ hostnameGo u.host
        ++ trimSlashes (u.path ++ List.replicate n '/') = _
    rw [trimSlashes_append_replicate]
    rfl
  · intro u
    show (("https://".data ++ hostnameGo u.host) ++ trimSlashes u.path).take 8
        = "https://".data
    rw [List.append_assoc,
      show (8 : Nat) = "https://".data.length from rfl, List.take_left]
  · decide
  · decide
  · decide
  · decide
  · decide
  · decide

/-- C10: normalization discards an explicit port.  A valid numeric port
after the host's last `:` never reaches the output of `standardizeURL`,
so `https://foo.com:8443/x` and `https://foo.com/x` normalize to the
same key `https://foo.com/x` — the port-less URL — which is the string
enqueued and later fetched. -/
theorem c10_port_dropped :
    (∀ (w : GoURL) (h port : Str), ':' ∉ h → port.all Char.isDigit = true →
       standardizeURL { w with host := h ++ ':' :: port }
         = standardizeURL { w with host := h }) ∧
    stdOfStr "https://foo.com:8443/x" = some "https://foo.com/x".data ∧
    stdOfStr "https://foo.com/x" = some "https://foo.com/x".data := by
  refine ⟨?_, by decide, by decide⟩
  intro w h port hh hp
  show "https://".data ++ hostnameGo (h ++ ':' :: port) ++ trimSlashes w.path = _
  rw [hostnameGo_strip_port h port hh hp]
  rfl

/-- C8: href policy of the extractor.  Only the first href attribute of
an anchor is consulted (everything after it, including further href
attributes, is ignored); its value, trimmed of surrounding whitespace,
contributes a link iff it parses and the parsed scheme is exactly
`https`, in which case the standardized URL is contributed; and a
skipped anchor (relative path, mailto, http, unparseable value) does
not prevent extraction of the rest of the page. -/
theorem c8_href_policy :
    (∀ (pre rest : List Attr) (v : Str), (∀ a ∈ pre, a.key ≠ "href".data) →
       hrefOf (pre ++ ⟨"href".data, v⟩ :: rest) = some v) ∧
    (∀ (attrs : List Attr) (v : Str), hrefOf attrs = some v →
       ((∃ w, parseURL (trimSpace v) = some w ∧ w.scheme = "https".data) ↔
        ∃ u, linkOfAnchor attrs = some u)) ∧
    (∀ (attrs : List Attr) (v : Str) (w : GoURL), hrefOf attrs = some v →
       parseURL (trimSpace v) = some w → w.scheme = "https".data →
       linkOfAnchor attrs = some (standardizeURL w)) ∧
    parseURLs (.node .documentNode [] []
      [anchorNode "/relativepath".data, anchorNode "mailto:me@foo.com".data,
       anchorNode "http://foo.com".data, anchorNode "not a url".data,
       anchorNode "https://foo.com".data]) = ["https://foo.com".data] := by
  refine ⟨?_, ?_, ?_, by decide⟩
  · intro pre rest v hpre
    induction pre with
    | nil => simp [hrefOf]
    | cons a pre ih =>
      rw [List.cons_append]
      unfold hrefOf
      rw [if_neg (hpre a (List.mem_cons_self a pre))]
      exact ih (fun b hb => hpre b (List.mem_cons_of_mem a hb))
  · intro attrs v h
    rw [linkOfAnchor_eq attrs v h]
    cases hparse : parseURL (trimSpace v) with
    | none => simp
    | some w =>
      show (∃ w', some w = some w' ∧ w'.scheme = "https".data) ↔
        ∃ u, (if w.scheme = "https".data
              then some (standardizeURL w) else none) = some u
      by_cases hs : w.scheme = "https".data
      · rw [if_pos hs]
        exact iff_of_true ⟨w, rfl, hs⟩ ⟨standardizeURL w, rfl⟩
      · rw [if_neg hs]
        apply iff_of_false
        · rintro ⟨w', hw', hs'⟩
          rw [Option.some.injEq] at hw'
          exact hs (hw' ▸ hs')
        · rintro ⟨u, hu⟩
          exact Option.noConfusion hu
  · intro attrs v w h hw hs
    rw [linkOfAnchor_eq attrs v h, hw]
    show (if w.scheme = "https".data then some (standardizeURL w) else none) = _
    rw [if_pos hs]

/-- Witness for C8 at concrete values: the first-href rule applied to an
anchor whose href is preceded by other attributes, and the
contributes-iff rule at `https://foo.com`. -/
theorem c8_href_policy_witness :
    hrefOf ([⟨"target".data, "_".data⟩] ++
        ⟨"href".data, "https://foo.com".data⟩ :: [⟨"href".data, "https://bar.com".data⟩])
      = some "https://foo.com".data ∧
    linkOfAnchor [⟨"target".data, "_".data⟩, ⟨"href".data, "https://foo.com".data⟩,
        ⟨"href".data, "https://bar.com".data⟩]
      = some (standardizeURL ⟨"https".data, [], "foo.com".data, [], [], []⟩) :=
  ⟨c8_href_policy.1 [⟨"target".data, "_".data⟩] [⟨"href".data, "https://bar.com".data⟩]
      "https://foo.com".data (by decide),
   c8_href_policy.2.2.1
      [⟨"target".data, "_".data⟩, ⟨"href".data, "https://foo.com".data⟩,
       ⟨"href".data, "https://bar.com".data⟩]
      "https://foo.com".data ⟨"https".data, [], "foo.com".data, [], [], []⟩
      (by decide) (by decide) (by decide)⟩

/-- C9: the extractor's output is exactly the first-occurrence
deduplication of the raw link stream produced by the depth-first
traversal that checks a node's anchor before recursing into its
children in document order; hence each normalized URL occurs at most
once per page, while two different pages can both still produce the
same URL. -/
theorem c9_extraction_dedup_order :
    (∀ doc : HNode, parseURLs doc = dedupFirst (rawNode doc)) ∧
    (∀ doc : HNode, (parseURLs doc).Nodup) ∧
    parseURLs (anchorNode "https://shared.example".data)
      = ["https://shared.example".data] ∧
    parseURLs (.node .documentNode [] []
        [anchorNode "https://shared.example".data,
         anchorNode "https://other.example".data])
      = ["https://shared.example".data, "https://other.example".data] := by
  refine ⟨parseURLs_eq_dedup, ?_, by decide, by decide⟩
  intro doc
  rw [parseURLs_eq_dedup, dedupFirst]
  exact (dedupFirstAux_nodup (rawNode doc) []).1

/-- Witness for C10 at the concrete host `foo.com` and port `8443`. -/
theorem c10_port_dropped_witness :
    (':' ∉ "foo.com".data) ∧ ("8443".data.all Char.isDigit = true) ∧
    standardizeURL ⟨"https".data, [], "foo.com".data ++ ':' :: "8443".data,
        "/x".data, [], []⟩
      = standardizeURL ⟨"https".data, [], "foo.com".data, "/x".data, [], []⟩ :=
  ⟨by decide, by decide,
    c10_port_dropped.1 ⟨"https".data, [], [], "/x".data, [], []⟩
      "foo.com".data "8443".data (by decide) (by decide)⟩

end Crawler

/-!
Checks that the embedding reproduces the repository's unit test suite
(`main_test.go`): `TestStandardizeURL`, `TestParseURLs` and
`TestProcessResults`.
-/

section TestSuite

open Crawler

-- TestStandardizeURL
example : stdOfStr "foo.com" = some "https://foo.com".data := by decide
example : stdOfStr "foo" = some "https://foo".data := by decide
example : stdOfStr "foo.io" = some "https://foo.io".data := by decide
example : stdOfStr "http://foo.com" = some "https://foo.com".data := by decide
example : stdOfStr "https://foo.com" = some "https://foo.com".data := by decide
example : stdOfStr "foo.com/" = some "https://foo.com".data := by decide
example : stdOfStr "foo.com/////" = some "https://foo.com".data := by decide
example : stdOfStr "foo.com/a/b/c/" = some "https://foo.com/a/b/c".data := by
  decide
example : stdOfStr "foo.com?a=b&c=d" = some "https://foo.com".data := by decide
example : stdOfStr "foo.com/?a=b&c=d" = some "https://foo.com".data := by decide
example : stdOfStr "foo.com#tag" = some "https://foo.com".data := by decide
example : stdOfStr "foo.com/#tag?a=b&c=d" = some "https://foo.com".data := by
  decide

-- TestParseURLs
example : parseURLs (anchorNode "https://foo.com".data)
    = ["https://foo.com".data] := by decide
example : parseURLs (.node .elementNode "a".data
    [⟨"target".data, "_".data⟩, ⟨"x-other-attr".data, "https://bar.com".data⟩,
     ⟨"href".data, "https://foo.com".data⟩] []) = ["https://foo.com".data] := by
  decide
example : parseURLs (anchorNode "  https://foo.com  ".data)
    = ["https://foo.com".data] := by decide
example : parseURLs (anchorNode "foo.com".data) = [] := by decide
example : parseURLs (anchorNode "not a url".data) = [] := by decide
example : parseURLs (anchorNode "http://foo.com".data) = [] := by decide
example : parseURLs (anchorNode "mailto:me@foo.com".data) = [] := by decide
example : parseURLs (anchorNode "/relativepath".data) = [] := by decide
example : parseURLs (.node .elementNode "nav".data []
    [anchorNode "https://foo.com".data, anchorNode "https://foo.com".data])
    = ["https://foo.com".data] := by decide
example : parseURLs (.node .documentNode [] []
    [.node .elementNode "nav".data []
      [anchorNode "https://foo.com".data, anchorNode "https://bar.com".data],
     anchorNode "https://baz.com".data, anchorNode "not a url".data]) =
    ["https://foo.com".data, "https://bar.com".data, "https://baz.com".data] := by
  decide

-- TestProcessResults "test basic"
example : (processResults 3 5 initState
    [⟨"https://foo.com".data, ["https://a.com".data, "https://b.com".data], 1⟩,
     ⟨"https://a.com".data, ["https://c.com".data, "https://d.com".data], 2⟩]).queue =
    [⟨"https://a.com".data, 2⟩, ⟨"https://b.com".data, 2⟩,
     ⟨"https://c.com".data, 3⟩, ⟨"https://d.com".data, 3⟩] := by decide

-- TestProcessResults "test ignores already crawled"
example : (processResults 3 5 initState
    [⟨"https://foo.com".data, ["https://a.com".data, "https://foo.com".data], 1⟩,
     ⟨"https://a.com".data, ["https://a.com".data, "https://b.com".data], 2⟩]).queue =
    [⟨"https://a.com".data, 2⟩, ⟨"https://b.com".data, 3⟩] := by decide

-- TestProcessResults "test overflow is ignored"
example : (processResults 3 5 initState
    [⟨"https://foo.com".data, ["https://a.com".data, "https://b.com".data,
      "https://c.com".data, "https://d.com".data, "https://e.com".data,
      "https://f.com".data, "https://g.com".data], 1⟩]).queue =
    [⟨"https://a.com".data, 2⟩, ⟨"https://b.com".data, 2⟩, ⟨"https://c.com".data, 2⟩,
     ⟨"https://d.com".data, 2⟩, ⟨"https://e.com".data, 2⟩] := by decide

-- TestProcessResults "test max depth is ignored"
example : (processResults 3 5 initState
    [⟨"https://foo.com".data, ["https://a.com".data, "https://b.com".data], 3⟩]).queue =
    [] := by decide

end TestSuite
